import Mathlib

/-!
Shallow embedding of `src/AssetManager.js`: a minimal browser asset
preloader.  The class owns a download queue, a cache mapping path to the
image handle, two counters, and an options object.  `downloadAll` creates
one image per queued path, registers `load`/`error` listeners, starts the
fetch by assigning `img.src`, and stores the handle in the cache at once;
every listener increments a counter and invokes the completion callback
when `isDone()` holds.  The asynchronous environment (issued fetches that
later settle, console output, the number of callback invocations) is made
explicit in a `Config` record, and the event loop is a small-step relation
given by `step` over an `Op` alphabet.
-/

/-- Outcome with which an issued fetch settles: the `load` event or the
`error` event of the underlying image. -/
inductive Outcome where
  | loaded : Outcome
  | failed : Outcome
deriving DecidableEq

/-- One issued fetch: the image object created by `new Image()` in the
`downloadAll` loop, identified by a fresh numeric handle, together with
the path whose listeners were attached to it. -/
structure Fetch where
  id : Nat
  path : String
deriving DecidableEq

/-- Options object of the constructor, with its single documented field
`debugging` (line 3 of the source). -/
structure AssetManagerOptions where
  debugging : Bool
deriving DecidableEq

/-- Instance state of `AssetManager`.  `cache` is the JS object
`this.cache`, modelled as an association list whose most recent write sits
at the head; values are the numeric handles of the stored images.
`debugging` models `this.debugging`, which the class never assigns
(`none` is JS `undefined`); `options` is `this.options`. -/
structure AssetManager where
  successCount : Nat
  errorCount : Nat
  cache : List (String × Nat)
  downloadQueue : List String
  options : AssetManagerOptions
  debugging : Option Bool
deriving DecidableEq

/-- Run-time configuration: the manager instance together with the parts
of the browser environment the claims speak about — the issued but not yet
settled fetches, the number of times the `downloadAll` callback has been
invoked (the callback takes no arguments, so an invocation carries no
payload), the console output, and a counter producing fresh image
handles. -/
structure Config where
  mgr : AssetManager
  pending : List Fetch
  callbackCount : Nat
  consoleLog : List String
  nextId : Nat
deriving DecidableEq

/-- Constructor `new AssetManager(options)` (source lines 7-37): counters
zero, empty cache and queue, `this.options` set, `this.debugging` left
unassigned. -/
def newAssetManager (options : AssetManagerOptions) : AssetManager :=
  ⟨0, 0, [], [], options, none⟩

/-- Fresh configuration around a newly constructed manager. -/
def initConfig (options : AssetManagerOptions) : Config :=
  ⟨newAssetManager options, [], 0, [], 0⟩

/-- JS truthiness of the value of `this.debugging` (`undefined` is
falsy). -/
def truthy : Option Bool → Bool
  | none => false
  | some b => b

/-- Method `debug(message)` (source lines 44-52): appends `message` to the
console exactly when `this.debugging` is truthy, otherwise returns at
once. -/
def debugCall (m : AssetManager) (log : List String) (message : String) : List String :=
  if truthy m.debugging then log ++ [message] else log

/-- Method `queueDownload(path)` (source lines 58-61): pushes `path` onto
the download queue and emits a debug trace. -/
def queueDownload (c : Config) (path : String) : Config :=
  { c with
      mgr := { c.mgr with downloadQueue := c.mgr.downloadQueue ++ [path] },
      consoleLog := debugCall c.mgr c.consoleLog ("Queued " ++ path ++ " for download") }

/-- Images created by the `downloadAll` loop over `queue`, in loop order,
with fresh handles starting at `firstId`. -/
def issuedFetches : List String → Nat → List Fetch
  | [], _ => []
  | p :: rest, n => ⟨n, p⟩ :: issuedFetches rest (n + 1)

/-- Method `downloadAll(callback)` (source lines 67-94).  On an empty
queue the callback is invoked synchronously and the method returns
(lines 68-70).  Otherwise the loop creates one image per queued path,
registers its two listeners (the fetch becomes pending), assigns
`img.src` (starting the fetch) and stores the handle in the cache under
the path immediately (lines 91-92), before any fetch settles. -/
def downloadAll (c : Config) : Config :=
  if c.mgr.downloadQueue.length = 0 then
    { c with callbackCount := c.callbackCount + 1 }
  else
    let fs := issuedFetches c.mgr.downloadQueue c.nextId
    { c with
        mgr := { c.mgr with
                   cache := fs.foldl (fun acc f => (f.path, f.id) :: acc) c.mgr.cache },
        pending := c.pending ++ fs,
        nextId := c.nextId + fs.length }

/-- Method `isDone()` (source lines 100-102): compares the queue length
with the sum of the counters. -/
def AssetManager.isDone (m : AssetManager) : Bool :=
  m.downloadQueue.length == m.successCount + m.errorCount

/-- Value of the JS expression `this.cache[path]` (`none` is
`undefined`: the key is absent). -/
def cacheLookup (cache : List (String × Nat)) (path : String) : Option Nat :=
  match cache.find? (fun e => e.1 == path) with
  | none => none
  | some e => some e.2

/-- Value returned by method `getAsset(path)` (source lines 109-116):
`none` models the `null` return. -/
def AssetManager.getAsset (m : AssetManager) (path : String) : Option Nat :=
  cacheLookup m.cache path

/-- Method `getAsset(path)` as an operation on the configuration: the
not-found branch emits a debug trace (line 111); no other state is
touched. -/
def getAssetOp (c : Config) (path : String) : Option Nat × Config :=
  match cacheLookup c.mgr.cache path with
  | none =>
      (none,
       { c with consoleLog := debugCall c.mgr c.consoleLog ("Asset " ++ path ++ " not found in cache") })
  | some v => (some v, c)

/-- Method `isDone()` as an operation on the configuration: it reads the
counters and the queue and touches nothing. -/
def isDoneOp (c : Config) : Bool × Config :=
  (c.mgr.isDone, c)

/-- Delivery of one settle event to the fetch with handle `fid`: the
registered listener (source lines 75-81 for `load`, 83-89 for `error`)
emits a debug trace, increments the matching counter, and invokes the
callback exactly when `isDone()` now holds.  An event whose target is not
a pending fetch has no registered listener and changes nothing.  The
cache is not touched by either listener. -/
def settleStep (c : Config) (fid : Nat) (o : Outcome) : Config :=
  match c.pending.find? (fun f => f.id == fid) with
  | none => c
  | some f =>
      let remaining := c.pending.filter (fun g => g.id != fid)
      match o with
      | Outcome.loaded =>
          let m2 := { c.mgr with successCount := c.mgr.successCount + 1 }
          { c with
              mgr := m2,
              pending := remaining,
              consoleLog := debugCall c.mgr c.consoleLog ("Loaded " ++ f.path),
              callbackCount := if m2.isDone then c.callbackCount + 1 else c.callbackCount }
      | Outcome.failed =>
          let m2 := { c.mgr with errorCount := c.mgr.errorCount + 1 }
          { c with
              mgr := m2,
              pending := remaining,
              consoleLog := debugCall c.mgr c.consoleLog ("Error loading " ++ f.path),
              callbackCount := if m2.isDone then c.callbackCount + 1 else c.callbackCount }

/-- Alphabet of the event loop: a `queueDownload` call, a `downloadAll`
call, or the settling of an issued fetch. -/
inductive Op where
  | enqueue : String → Op
  | download : Op
  | settle : Nat → Outcome → Op
deriving DecidableEq

/-- One step of the event loop. -/
def step (c : Config) : Op → Config
  | Op.enqueue p => queueDownload c p
  | Op.download => downloadAll c
  | Op.settle fid o => settleStep c fid o

/-- Run of a whole event sequence. -/
def run (c : Config) : List Op → Config
  | [] => c
  | op :: ops => run (step c op) ops

/-- Run of a sequence of settle events only. -/
def runSettles (c : Config) : List (Nat × Outcome) → Config
  | [] => c
  | e :: es => runSettles (settleStep c e.1 e.2) es

/-- Number of `downloadAll` calls in an event sequence. -/
def countDownloads : List Op → Nat
  | [] => 0
  | Op.download :: ops => countDownloads ops + 1
  | _ :: ops => countDownloads ops

/-! Basic lemmas about the individual operations. -/

theorem debugCall_none {m : AssetManager} (log : List String) (msg : String)
    (h : m.debugging = none) : debugCall m log msg = log := by
  simp [debugCall, h, truthy]

@[simp]
theorem issuedFetches_length (q : List String) (n : Nat) :
    (issuedFetches q n).length = q.length := by
  induction q generalizing n with
  | nil => rfl
  | cons p rest ih => simp [issuedFetches, ih]

theorem issuedFetches_map_id (q : List String) (n : Nat) :
    (issuedFetches q n).map Fetch.id = List.range' n q.length := by
  induction q generalizing n with
  | nil => rfl
  | cons p rest ih => simp [issuedFetches, ih, List.range'_succ]

theorem issuedFetches_map_path (q : List String) (n : Nat) :
    (issuedFetches q n).map Fetch.path = q := by
  induction q generalizing n with
  | nil => rfl
  | cons p rest ih => simp [issuedFetches, ih]

theorem issuedFetches_id_nodup (q : List String) (n : Nat) :
    ((issuedFetches q n).map Fetch.id).Nodup := by
  rw [issuedFetches_map_id]
  exact List.nodup_range' _ _

theorem isDone_iff (m : AssetManager) :
    m.isDone = true ↔ m.downloadQueue.length = m.successCount + m.errorCount := by
  simp [AssetManager.isDone]

/-! Component lemmas for `queueDownload`. -/

theorem queueDownload_mgr (c : Config) (p : String) :
    (queueDownload c p).mgr.downloadQueue = c.mgr.downloadQueue ++ [p]
      ∧ (queueDownload c p).mgr.successCount = c.mgr.successCount
      ∧ (queueDownload c p).mgr.errorCount = c.mgr.errorCount
      ∧ (queueDownload c p).mgr.cache = c.mgr.cache
      ∧ (queueDownload c p).mgr.options = c.mgr.options
      ∧ (queueDownload c p).mgr.debugging = c.mgr.debugging
      ∧ (queueDownload c p).pending = c.pending
      ∧ (queueDownload c p).callbackCount = c.callbackCount
      ∧ (queueDownload c p).nextId = c.nextId := by
  simp [queueDownload]

/-! Component lemmas for `downloadAll`. -/

theorem downloadAll_empty_queue (c : Config) (h : c.mgr.downloadQueue = []) :
    downloadAll c = { c with callbackCount := c.callbackCount + 1 } := by
  simp [downloadAll, h]

theorem downloadAll_nonempty (c : Config) (h : c.mgr.downloadQueue ≠ []) :
    (downloadAll c).mgr.downloadQueue = c.mgr.downloadQueue
      ∧ (downloadAll c).mgr.successCount = c.mgr.successCount
      ∧ (downloadAll c).mgr.errorCount = c.mgr.errorCount
      ∧ (downloadAll c).mgr.cache
          = (issuedFetches c.mgr.downloadQueue c.nextId).foldl
              (fun acc f => (f.path, f.id) :: acc) c.mgr.cache
      ∧ (downloadAll c).mgr.options = c.mgr.options
      ∧ (downloadAll c).mgr.debugging = c.mgr.debugging
      ∧ (downloadAll c).pending = c.pending ++ issuedFetches c.mgr.downloadQueue c.nextId
      ∧ (downloadAll c).callbackCount = c.callbackCount
      ∧ (downloadAll c).consoleLog = c.consoleLog := by
  have hl : c.mgr.downloadQueue.length ≠ 0 := by
    simpa [List.length_eq_zero] using h
  simp [downloadAll, hl]

/-! Component lemmas for `settleStep`. -/

theorem settleStep_not_pending (c : Config) (fid : Nat) (o : Outcome)
    (h : c.pending.find? (fun f => f.id == fid) = none) :
    settleStep c fid o = c := by
  cases o <;> simp [settleStep, h]

theorem settleStep_found (c : Config) (fid : Nat) (o : Outcome) (f : Fetch)
    (h : c.pending.find? (fun g => g.id == fid) = some f) :
    (settleStep c fid o).mgr.successCount + (settleStep c fid o).mgr.errorCount
        = c.mgr.successCount + c.mgr.errorCount + 1
      ∧ (settleStep c fid o).pending = c.pending.filter (fun g => g.id != fid)
      ∧ (settleStep c fid o).mgr.downloadQueue = c.mgr.downloadQueue
      ∧ (settleStep c fid o).mgr.cache = c.mgr.cache
      ∧ (settleStep c fid o).mgr.options = c.mgr.options
      ∧ (settleStep c fid o).mgr.debugging = c.mgr.debugging
      ∧ (settleStep c fid o).callbackCount
          = (if c.mgr.downloadQueue.length = c.mgr.successCount + c.mgr.errorCount + 1
             then c.callbackCount + 1 else c.callbackCount) := by
  cases o <;>
    simp [settleStep, h, AssetManager.isDone] <;>
    exact ⟨by omega, if_congr (by omega) rfl rfl⟩

theorem settleStep_loaded_counts (c : Config) (fid : Nat) (f : Fetch)
    (h : c.pending.find? (fun g => g.id == fid) = some f) :
    (settleStep c fid Outcome.loaded).mgr.successCount = c.mgr.successCount + 1
      ∧ (settleStep c fid Outcome.loaded).mgr.errorCount = c.mgr.errorCount := by
  simp [settleStep, h]

theorem settleStep_failed_counts (c : Config) (fid : Nat) (f : Fetch)
    (h : c.pending.find? (fun g => g.id == fid) = some f) :
    (settleStep c fid Outcome.failed).mgr.errorCount = c.mgr.errorCount + 1
      ∧ (settleStep c fid Outcome.failed).mgr.successCount = c.mgr.successCount := by
  simp [settleStep, h]

/-! Auxiliary list lemmas used by the settle-phase analysis. -/

theorem map_id_filter (l : List Fetch) (fid : Nat) :
    (l.filter (fun g => g.id != fid)).map Fetch.id
      = (l.map Fetch.id).filter (fun x => x != fid) := by
  induction l with
  | nil => rfl
  | cons f rest ih =>
      cases hf : (f.id != fid) <;> simp [List.filter_cons, hf, ih]

theorem filter_ne_self (ns : List Nat) (a : Nat) (h : a ∉ ns) :
    ns.filter (fun x => x != a) = ns := by
  induction ns with
  | nil => rfl
  | cons b t ih =>
      rw [List.mem_cons, not_or] at h
      have hb : (b != a) = true := by
        simp only [bne_iff_ne, ne_eq]
        exact fun e => h.1 e.symm
      simp [List.filter_cons, hb, ih h.2]

theorem length_filter_ne (ns : List Nat) (a : Nat) (hnd : ns.Nodup) (ha : a ∈ ns) :
    (ns.filter (fun x => x != a)).length + 1 = ns.length := by
  induction ns with
  | nil => cases ha
  | cons b t ih =>
      rw [List.nodup_cons] at hnd
      rcases List.mem_cons.1 ha with rfl | hat
      · simp [List.filter_cons, filter_ne_self t a hnd.1]
      · have hb : (b != a) = true := by
          simp only [bne_iff_ne, ne_eq]
          rintro rfl
          exact hnd.1 hat
        have := ih hnd.2 hat
        simp [List.filter_cons, hb]
        omega

theorem filter_length_lt (l : List Fetch) (fid : Nat) (f : Fetch)
    (hf : f ∈ l) (hfid : f.id = fid) :
    (l.filter (fun g => g.id != fid)).length < l.length := by
  induction l with
  | nil => cases hf
  | cons b t ih =>
      rcases List.mem_cons.1 hf with rfl | ht
      · have hb : (f.id != fid) = false := by simp [hfid]
        simp only [List.filter_cons, hb, Bool.false_eq_true, if_false, List.length_cons]
        exact Nat.lt_succ_of_le (List.length_filter_le _ _)
      · have := ih ht
        cases hb : (b.id != fid) <;>
          simp only [List.filter_cons, hb, if_true, if_false, List.length_cons,
            Bool.false_eq_true] <;>
          omega

theorem find_id_of_mem (l : List Fetch) (fid : Nat)
    (h : fid ∈ l.map Fetch.id) :
    ∃ f, l.find? (fun g => g.id == fid) = some f := by
  rcases List.mem_map.1 h with ⟨f, hfl, hfid⟩
  have hs : (l.find? (fun g => g.id == fid)).isSome := by
    rw [List.find?_isSome]
    exact ⟨f, hfl, by simp [hfid]⟩
  exact Option.isSome_iff_exists.1 hs

/-- Core analysis of a settle phase.  From a configuration whose pending
fetches carry distinct handles and account exactly for the missing
completions, a sequence of distinct settle events aimed at pending
fetches leaves queue and cache untouched, adds one completion per event,
removes one pending fetch per event, and invokes the callback exactly
once — at the event that empties the pending set — and never
otherwise. -/
theorem runSettles_phase (seq : List (Nat × Outcome)) (c : Config)
    (hnd : (c.pending.map Fetch.id).Nodup)
    (hseq : (seq.map Prod.fst).Nodup)
    (hsub : ∀ x ∈ seq.map Prod.fst, x ∈ c.pending.map Fetch.id)
    (hsum : c.mgr.successCount + c.mgr.errorCount + c.pending.length
              = c.mgr.downloadQueue.length) :
    (runSettles c seq).mgr.downloadQueue = c.mgr.downloadQueue
      ∧ (runSettles c seq).mgr.cache = c.mgr.cache
      ∧ (runSettles c seq).mgr.successCount + (runSettles c seq).mgr.errorCount
          = c.mgr.successCount + c.mgr.errorCount + seq.length
      ∧ (runSettles c seq).pending.length + seq.length = c.pending.length
      ∧ (runSettles c seq).callbackCount
          = (if seq.length = c.pending.length ∧ 0 < seq.length
             then c.callbackCount + 1 else c.callbackCount) := by
  induction seq generalizing c with
  | nil =>
      simp [runSettles]
  | cons e rest ih =>
      obtain ⟨fid, o⟩ := e
      rw [List.map_cons, List.nodup_cons] at hseq
      have hmem : fid ∈ c.pending.map Fetch.id := hsub fid (by simp)
      obtain ⟨f, hf⟩ := find_id_of_mem c.pending fid hmem
      obtain ⟨hcnt, hpend, hq, hcache, _, _, hcb⟩ := settleStep_found c fid o f hf
      set c1 := settleStep c fid o with hc1
      have hmapf : c1.pending.map Fetch.id
          = (c.pending.map Fetch.id).filter (fun x => x != fid) := by
        rw [hpend, map_id_filter]
      have hnd1 : (c1.pending.map Fetch.id).Nodup := by
        rw [hmapf]
        exact hnd.filter _
      have hlen1 : c1.pending.length + 1 = c.pending.length := by
        have h2 := length_filter_ne (c.pending.map Fetch.id) fid hnd hmem
        have h3 : (c1.pending.map Fetch.id).length = c1.pending.length :=
          List.length_map _ _
        have h4 : (c.pending.map Fetch.id).length = c.pending.length :=
          List.length_map _ _
        rw [hmapf] at h3
        omega
      have hsub1 : ∀ x ∈ rest.map Prod.fst, x ∈ c1.pending.map Fetch.id := by
        intro x hx
        rw [hmapf, List.mem_filter]
        refine ⟨hsub x (by simp [hx]), ?_⟩
        simp only [bne_iff_ne, ne_eq]
        rintro rfl
        exact hseq.1 hx
      have hsum1 : c1.mgr.successCount + c1.mgr.errorCount + c1.pending.length
          = c1.mgr.downloadQueue.length := by
        rw [hq]
        omega
      obtain ⟨iq, icache, icnt, ilen, icb⟩ := ih c1 hnd1 hseq.2 hsub1 hsum1
      have hrun : runSettles c ((fid, o) :: rest) = runSettles c1 rest := rfl
      refine ⟨?_, ?_, ?_, ?_, ?_⟩
      · rw [hrun, iq, hq]
      · rw [hrun, icache, hcache]
      · rw [hrun]
        simp only [List.length_cons]
        omega
      · rw [hrun]
        simp only [List.length_cons]
        omega
      · rw [hrun, icb, hcb]
        simp only [List.length_cons]
        split_ifs <;> omega

/-! Shape of a download cycle started on a freshly constructed manager. -/

theorem queueDownload_none (c : Config) (p : String) (hdbg : c.mgr.debugging = none) :
    queueDownload c p
      = { c with mgr := { c.mgr with downloadQueue := c.mgr.downloadQueue ++ [p] } } := by
  simp [queueDownload, debugCall_none _ _ hdbg]

theorem run_enqueues (c : Config) (paths : List String) (hdbg : c.mgr.debugging = none) :
    run c (paths.map Op.enqueue)
      = { c with mgr := { c.mgr with downloadQueue := c.mgr.downloadQueue ++ paths } } := by
  induction paths generalizing c with
  | nil => simp [run]
  | cons p rest ih =>
      simp only [List.map_cons, run, step]
      rw [queueDownload_none c p hdbg]
      rw [ih { c with mgr := { c.mgr with downloadQueue := c.mgr.downloadQueue ++ [p] } } hdbg]
      simp

theorem run_enqueues_init (opts : AssetManagerOptions) (paths : List String) :
    run (initConfig opts) (paths.map Op.enqueue)
      = ⟨⟨0, 0, [], paths, opts, none⟩, [], 0, [], 0⟩ := by
  rw [run_enqueues _ _ rfl]
  simp [initConfig, newAssetManager]

theorem cycleStart (opts : AssetManagerOptions) (paths : List String) (h : paths ≠ []) :
    downloadAll (run (initConfig opts) (paths.map Op.enqueue))
      = ⟨⟨0, 0, (issuedFetches paths 0).foldl (fun acc f => (f.path, f.id) :: acc) [],
          paths, opts, none⟩,
         issuedFetches paths 0, 0, [], paths.length⟩ := by
  rw [run_enqueues_init]
  have hl : paths.length ≠ 0 := by simpa [List.length_eq_zero] using h
  simp [downloadAll, hl]

/-- Configuration reached by queueing `paths`, calling `downloadAll`, and
delivering the settle events `seq`. -/
def cycleState (opts : AssetManagerOptions) (paths : List String)
    (seq : List (Nat × Outcome)) : Config :=
  runSettles (downloadAll (run (initConfig opts) (paths.map Op.enqueue))) seq

/-- C1: for every download cycle started by `downloadAll` on a queue of
length `N > 0`, if every issued fetch settles exactly once (loaded or
failed, in any order — `seq` carries one event per issued handle), then
the completion callback is invoked exactly once over the cycle: it has
not been invoked after any strict prefix of the settle sequence, it has
been invoked exactly once after all of it, and at that moment
`successCount + errorCount = N`. -/
theorem downloadAll_cycle_fires_once (opts : AssetManagerOptions) (paths : List String)
    (seq : List (Nat × Outcome))
    (hN : 0 < paths.length)
    (hperm : List.Perm (seq.map Prod.fst) ((issuedFetches paths 0).map Fetch.id)) :
    (cycleState opts paths seq).callbackCount = 1
      ∧ (cycleState opts paths seq).mgr.successCount
          + (cycleState opts paths seq).mgr.errorCount = paths.length
      ∧ ∀ k < seq.length, (cycleState opts paths (seq.take k)).callbackCount = 0 := by
  have hne : paths ≠ [] := List.length_pos.1 hN
  set c1 := downloadAll (run (initConfig opts) (paths.map Op.enqueue)) with hc1
  have hstart := cycleStart opts paths hne
  have hpend : c1.pending = issuedFetches paths 0 := by rw [hc1, hstart]
  have hq : c1.mgr.downloadQueue = paths := by rw [hc1, hstart]
  have hs : c1.mgr.successCount = 0 := by rw [hc1, hstart]
  have he : c1.mgr.errorCount = 0 := by rw [hc1, hstart]
  have hcb0 : c1.callbackCount = 0 := by rw [hc1, hstart]
  have hnd : (c1.pending.map Fetch.id).Nodup := by
    rw [hpend]; exact issuedFetches_id_nodup paths 0
  have hpendlen : c1.pending.length = paths.length := by
    rw [hpend, issuedFetches_length]
  have hsum : c1.mgr.successCount + c1.mgr.errorCount + c1.pending.length
      = c1.mgr.downloadQueue.length := by
    rw [hs, he, hpendlen, hq]
    omega
  have hseqlen : seq.length = paths.length := by
    have h1 := hperm.length_eq
    simpa [List.length_map, issuedFetches_length] using h1
  have hseqnd : (seq.map Prod.fst).Nodup :=
    hperm.nodup_iff.2 (issuedFetches_id_nodup paths 0)
  have hsub : ∀ x ∈ seq.map Prod.fst, x ∈ c1.pending.map Fetch.id := by
    intro x hx
    rw [hpend]
    exact hperm.subset hx
  obtain ⟨_, _, icnt, _, icb⟩ := runSettles_phase seq c1 hnd hseqnd hsub hsum
  refine ⟨?_, ?_, ?_⟩
  · simp only [cycleState]
    rw [← hc1, icb, hcb0, if_pos ⟨by omega, by omega⟩]
  · simp only [cycleState]
    rw [← hc1]
    omega
  · intro k hk
    have htsub : ∀ x ∈ (seq.take k).map Prod.fst, x ∈ c1.pending.map Fetch.id := by
      intro x hx
      have hx2 : x ∈ seq.map Prod.fst := by
        rcases List.mem_map.1 hx with ⟨e, he2, rfl⟩
        exact List.mem_map.2 ⟨e, List.mem_of_mem_take he2, rfl⟩
      exact hsub x hx2
    have htnd : ((seq.take k).map Prod.fst).Nodup := by
      have hsl : List.Sublist ((seq.take k).map Prod.fst) (seq.map Prod.fst) :=
        (List.take_sublist k seq).map Prod.fst
      exact hsl.nodup hseqnd
    obtain ⟨_, _, _, _, icb2⟩ := runSettles_phase (seq.take k) c1 hnd htnd htsub hsum
    have hlt : (seq.take k).length = k := by
      rw [List.length_take, Nat.min_eq_left (Nat.le_of_lt hk)]
    have hcond : ¬((seq.take k).length = c1.pending.length ∧ 0 < (seq.take k).length) := by
      rw [hlt]
      omega
    simp only [cycleState]
    rw [← hc1, icb2, hcb0, if_neg hcond]

/-- Witness for C1: a two-element queue whose fetches settle out of queue
order, the second failing; the callback fires exactly once and the
counters account for both fetches. -/
theorem downloadAll_cycle_fires_once_witness :
    (cycleState ⟨false⟩ ["a.png", "b.png"] [(1, Outcome.failed), (0, Outcome.loaded)]).callbackCount = 1
      ∧ (cycleState ⟨false⟩ ["a.png", "b.png"] [(1, Outcome.failed), (0, Outcome.loaded)]).mgr.successCount
          + (cycleState ⟨false⟩ ["a.png", "b.png"] [(1, Outcome.failed), (0, Outcome.loaded)]).mgr.errorCount
          = 2 := by
  have h := downloadAll_cycle_fires_once ⟨false⟩ ["a.png", "b.png"]
    [(1, Outcome.failed), (0, Outcome.loaded)] (by decide) (by decide)
  exact ⟨h.1, h.2.1⟩

/-! Machinery for the global counter invariant (claim C2). -/

/-- Strengthened invariant: the counters plus the outstanding fetches
never exceed the queue length. -/
def SumInv (c : Config) : Prop :=
  c.mgr.successCount + c.mgr.errorCount + c.pending.length
    ≤ c.mgr.downloadQueue.length

theorem sumInv_enqueue (c : Config) (p : String) (h : SumInv c) :
    SumInv (queueDownload c p) := by
  obtain ⟨hq, hs, he, _, _, _, hp, _, _⟩ := queueDownload_mgr c p
  unfold SumInv at h ⊢
  rw [hq, hs, he, hp, List.length_append]
  simp only [List.length_cons, List.length_nil]
  omega

theorem sumInv_settle (c : Config) (fid : Nat) (o : Outcome) (h : SumInv c) :
    SumInv (settleStep c fid o) := by
  rcases hf : c.pending.find? (fun g => g.id == fid) with _ | f
  · rw [settleStep_not_pending c fid o hf]
    exact h
  · obtain ⟨hcnt, hpend, hq, _, _, _, _⟩ := settleStep_found c fid o f hf
    have hmem : f ∈ c.pending := List.mem_of_find?_eq_some hf
    have hfid : f.id = fid := by
      have h2 := List.find?_some hf
      simpa using h2
    have hlt := filter_length_lt c.pending fid f hmem hfid
    unfold SumInv at h ⊢
    rw [hq, hpend]
    omega

theorem sumInv_download_fresh (c : Config) (hp : c.pending = [])
    (hs : c.mgr.successCount = 0) (he : c.mgr.errorCount = 0) :
    SumInv (downloadAll c) := by
  by_cases hq : c.mgr.downloadQueue.length = 0
  · unfold SumInv
    simp [downloadAll, hq, hp, hs, he]
  · obtain ⟨h1, h2, h3, _, _, _, h7, _, _⟩ :=
      downloadAll_nonempty c (by simpa [← List.length_eq_zero] using hq)
    unfold SumInv
    rw [h1, h2, h3, h7, hs, he, hp, List.nil_append, issuedFetches_length]
    omega

theorem settle_fresh (c : Config) (fid : Nat) (o : Outcome) (hp : c.pending = []) :
    settleStep c fid o = c := by
  apply settleStep_not_pending
  rw [hp]
  rfl

/-- Through any event sequence containing at most one `downloadAll`, a
fresh pre-download state keeps `SumInv`. -/
theorem run_le_one_download (ops : List Op) (c : Config)
    (h : countDownloads ops ≤ 1)
    (hc : (c.pending = [] ∧ c.mgr.successCount = 0 ∧ c.mgr.errorCount = 0 ∧ SumInv c)
            ∨ (countDownloads ops = 0 ∧ SumInv c)) :
    SumInv (run c ops) := by
  induction ops generalizing c with
  | nil =>
      rcases hc with ⟨_, _, _, h4⟩ | ⟨_, h2⟩
      · exact h4
      · exact h2
  | cons op rest ih =>
      cases op with
      | enqueue p =>
          have hcount : countDownloads (Op.enqueue p :: rest) = countDownloads rest := rfl
          rw [run]
          apply ih
          · rw [← hcount]
            exact h
          · obtain ⟨hq, hs, he, _, _, _, hp, _, _⟩ := queueDownload_mgr c p
            rcases hc with ⟨h1, h2, h3, h4⟩ | ⟨h1, h2⟩
            · exact Or.inl ⟨by rw [step, hp]; exact h1, by rw [step, hs]; exact h2,
                by rw [step, he]; exact h3, sumInv_enqueue c p h4⟩
            · exact Or.inr ⟨by rw [← hcount]; exact h1, sumInv_enqueue c p h2⟩
      | download =>
          have hcount : countDownloads (Op.download :: rest) = countDownloads rest + 1 := rfl
          rw [run]
          rcases hc with ⟨h1, h2, h3, _⟩ | ⟨h1, _⟩
          · apply ih
            · omega
            · refine Or.inr ⟨by omega, ?_⟩
              rw [step]
              exact sumInv_download_fresh c h1 h2 h3
          · rw [hcount] at h1
            omega
      | settle fid o =>
          have hcount : countDownloads (Op.settle fid o :: rest) = countDownloads rest := rfl
          rw [run]
          apply ih
          · rw [← hcount]
            exact h
          · rcases hc with ⟨h1, h2, h3, h4⟩ | ⟨h1, h2⟩
            · rw [step, settle_fresh c fid o h1]
              exact Or.inl ⟨h1, h2, h3, h4⟩
            · exact Or.inr ⟨by rw [← hcount]; exact h1, sumInv_settle c fid o h2⟩

theorem counters_mono_step (c : Config) (op : Op) :
    c.mgr.successCount ≤ (step c op).mgr.successCount
      ∧ c.mgr.errorCount ≤ (step c op).mgr.errorCount := by
  cases op with
  | enqueue p => simp [step, queueDownload]
  | download =>
      by_cases h : c.mgr.downloadQueue.length = 0 <;>
        simp [step, downloadAll, h]
  | settle fid o =>
      rcases hf : c.pending.find? (fun g => g.id == fid) with _ | f
      · rw [step, settleStep_not_pending c fid o hf]
        exact ⟨Nat.le_refl _, Nat.le_refl _⟩
      · cases o with
        | loaded =>
            obtain ⟨h1, h2⟩ := settleStep_loaded_counts c fid f hf
            rw [step, h1, h2]
            omega
        | failed =>
            obtain ⟨h1, h2⟩ := settleStep_failed_counts c fid f hf
            rw [step, h1, h2]
            omega

/-- C2: in every state reachable by a sequence of `queueDownload` calls,
at most one `downloadAll` call, and settle events of the issued fetches,
`successCount + errorCount ≤ downloadQueue.length`; moreover each counter
is monotonically non-decreasing across every step (and both are
non-negative by living in `Nat`). -/
theorem counters_invariant (opts : AssetManagerOptions) (ops : List Op)
    (h : countDownloads ops ≤ 1) :
    (run (initConfig opts) ops).mgr.successCount
        + (run (initConfig opts) ops).mgr.errorCount
        ≤ (run (initConfig opts) ops).mgr.downloadQueue.length
      ∧ ∀ (c : Config) (op : Op),
          c.mgr.successCount ≤ (step c op).mgr.successCount
            ∧ c.mgr.errorCount ≤ (step c op).mgr.errorCount := by
  constructor
  · have hinv := run_le_one_download ops (initConfig opts) h
      (Or.inl ⟨rfl, rfl, rfl, by unfold SumInv; simp [initConfig, newAssetManager]⟩)
    unfold SumInv at hinv
    omega
  · exact counters_mono_step

/-- Witness for C2: a one-element queue downloaded and settled. -/
theorem counters_invariant_witness :
    countDownloads [Op.enqueue "a.png", Op.download, Op.settle 0 Outcome.loaded] ≤ 1
      ∧ (run (initConfig ⟨false⟩)
            [Op.enqueue "a.png", Op.download, Op.settle 0 Outcome.loaded]).mgr.successCount
          + (run (initConfig ⟨false⟩)
              [Op.enqueue "a.png", Op.download, Op.settle 0 Outcome.loaded]).mgr.errorCount
          ≤ (run (initConfig ⟨false⟩)
              [Op.enqueue "a.png", Op.download, Op.settle 0 Outcome.loaded]).mgr.downloadQueue.length :=
  ⟨by decide, (counters_invariant ⟨false⟩ _ (by decide)).1⟩

/-! Machinery for the empty-queue special case (claims C3 and C10):
the queue length never shrinks, so a reachable state with an empty queue
has zero counters and no outstanding fetches. -/

theorem queue_len_mono_step (c : Config) (op : Op) :
    c.mgr.downloadQueue.length ≤ (step c op).mgr.downloadQueue.length := by
  cases op with
  | enqueue p =>
      obtain ⟨hq, _⟩ := queueDownload_mgr c p
      rw [step, hq, List.length_append]
      omega
  | download =>
      by_cases h : c.mgr.downloadQueue.length = 0 <;>
        simp [step, downloadAll, h]
  | settle fid o =>
      rcases hf : c.pending.find? (fun g => g.id == fid) with _ | f
      · rw [step, settleStep_not_pending c fid o hf]
      · obtain ⟨_, _, hq, _⟩ := settleStep_found c fid o f hf
        rw [step, hq]

theorem queue_len_mono_run (ops : List Op) (c : Config) :
    c.mgr.downloadQueue.length ≤ (run c ops).mgr.downloadQueue.length := by
  induction ops generalizing c with
  | nil => exact Nat.le_refl _
  | cons op rest ih =>
      rw [run]
      exact Nat.le_trans (queue_len_mono_step c op) (ih (step c op))

theorem run_from_fresh_empty (ops : List Op) (c : Config)
    (hq : c.mgr.downloadQueue = []) (hp : c.pending = [])
    (hs : c.mgr.successCount = 0) (he : c.mgr.errorCount = 0)
    (hfin : (run c ops).mgr.downloadQueue = []) :
    (run c ops).mgr.successCount = 0 ∧ (run c ops).mgr.errorCount = 0
      ∧ (run c ops).pending = [] := by
  induction ops generalizing c with
  | nil => exact ⟨hs, he, hp⟩
  | cons op rest ih =>
      cases op with
      | enqueue p =>
          exfalso
          obtain ⟨hq2, _⟩ := queueDownload_mgr c p
          have h1 : 1 ≤ (step c (Op.enqueue p)).mgr.downloadQueue.length := by
            rw [step, hq2, hq]
            simp
          have h2 := queue_len_mono_run rest (step c (Op.enqueue p))
          rw [run] at hfin
          rw [hfin, List.length_nil] at h2
          omega
      | download =>
          rw [run, step, downloadAll_empty_queue c hq] at hfin ⊢
          exact ih _ hq hp hs he hfin
      | settle fid o =>
          rw [run, step, settle_fresh c fid o hp] at hfin ⊢
          exact ih c hq hp hs he hfin

/-- C3: on every reachable configuration whose queue is empty,
`downloadAll` invokes the callback synchronously within the call, exactly
once, issues no fetch (outstanding fetches and the fresh-handle counter
are unchanged), and leaves the whole manager state — counters, cache,
queue — unchanged, the counters both being zero. -/
theorem downloadAll_empty_spec (opts : AssetManagerOptions) (ops : List Op)
    (h : (run (initConfig opts) ops).mgr.downloadQueue = []) :
    (downloadAll (run (initConfig opts) ops)).callbackCount
        = (run (initConfig opts) ops).callbackCount + 1
      ∧ (downloadAll (run (initConfig opts) ops)).mgr = (run (initConfig opts) ops).mgr
      ∧ (downloadAll (run (initConfig opts) ops)).pending
          = (run (initConfig opts) ops).pending
      ∧ (downloadAll (run (initConfig opts) ops)).nextId
          = (run (initConfig opts) ops).nextId
      ∧ (downloadAll (run (initConfig opts) ops)).mgr.successCount = 0
      ∧ (downloadAll (run (initConfig opts) ops)).mgr.errorCount = 0 := by
  have hz := run_from_fresh_empty ops (initConfig opts) rfl rfl rfl rfl h
  have hd := downloadAll_empty_queue (run (initConfig opts) ops) h
  refine ⟨by rw [hd], by rw [hd], by rw [hd], by rw [hd], ?_, ?_⟩
  · rw [hd]
    exact hz.1
  · rw [hd]
    exact hz.2.1

/-- Witness for C3: a freshly constructed manager. -/
theorem downloadAll_empty_spec_witness :
    (run (initConfig ⟨false⟩) []).mgr.downloadQueue = []
      ∧ (downloadAll (run (initConfig ⟨false⟩) [])).callbackCount
          = (run (initConfig ⟨false⟩) []).callbackCount + 1
      ∧ (downloadAll (run (initConfig ⟨false⟩) [])).mgr.successCount = 0 := by
  have h := downloadAll_empty_spec ⟨false⟩ [] rfl
  exact ⟨rfl, h.1, h.2.2.2.2.1⟩

/-- C7: `isDone` is a pure predicate: it returns true exactly when
`successCount + errorCount` equals the queue length, and as an operation
it leaves the configuration — queue, cache, counters, everything —
unchanged. -/
theorem isDone_pure (c : Config) :
    ((isDoneOp c).1 = true
        ↔ c.mgr.downloadQueue.length = c.mgr.successCount + c.mgr.errorCount)
      ∧ (isDoneOp c).2 = c :=
  ⟨by simp [isDoneOp, AssetManager.isDone], rfl⟩

/-- C10: `isDone` returns true on every reachable configuration with an
empty queue — in particular on a freshly constructed manager — and a
completed state is not latched: `queueDownload` on any manager with
`isDone` true makes `isDone` false again. -/
theorem isDone_empty_unlatched (opts : AssetManagerOptions) (ops : List Op)
    (h : (run (initConfig opts) ops).mgr.downloadQueue = []) :
    (run (initConfig opts) ops).mgr.isDone = true
      ∧ (newAssetManager opts).isDone = true
      ∧ ∀ (c : Config) (p : String), c.mgr.isDone = true
          → (queueDownload c p).mgr.isDone = false := by
  refine ⟨?_, rfl, ?_⟩
  · obtain ⟨hs, he, _⟩ := run_from_fresh_empty ops (initConfig opts) rfl rfl rfl rfl h
    rw [isDone_iff, h, hs, he]
    simp
  · intro c p hdone
    rw [isDone_iff] at hdone
    rw [← Bool.not_eq_true, isDone_iff]
    obtain ⟨hq, hs2, he2, _⟩ := queueDownload_mgr c p
    rw [hq, hs2, he2, List.length_append]
    simp only [List.length_cons, List.length_nil]
    omega

/-- Witness for C10: a fresh manager is done; queueing makes it not
done. -/
theorem isDone_empty_unlatched_witness :
    (run (initConfig ⟨false⟩) []).mgr.isDone = true
      ∧ (queueDownload (initConfig ⟨false⟩) "a.png").mgr.isDone = false := by
  have h := isDone_empty_unlatched ⟨false⟩ [] rfl
  exact ⟨h.1, h.2.2 (initConfig ⟨false⟩) "a.png" rfl⟩

/-! Cache lemmas (claims C9, C4, C5). -/

theorem foldl_cacheWrites (l : List Fetch) (acc : List (String × Nat)) :
    l.foldl (fun a f => (f.path, f.id) :: a) acc
      = (l.map (fun f => (f.path, f.id))).reverse ++ acc := by
  induction l generalizing acc with
  | nil => simp
  | cons f t ih => simp [List.foldl_cons, ih]

theorem cacheLookup_ne_none (cache : List (String × Nat)) (p : String)
    (e : String × Nat) (he : e ∈ cache) (hep : e.1 = p) :
    cacheLookup cache p ≠ none := by
  have hs : (cache.find? (fun x => x.1 == p)).isSome := by
    rw [List.find?_isSome]
    exact ⟨e, he, by simp [hep]⟩
  rcases hf : cache.find? (fun x => x.1 == p) with _ | v
  · rw [hf] at hs
    simp at hs
  · simp [cacheLookup, hf]

theorem cacheLookup_none (cache : List (String × Nat)) (p : String)
    (h : ∀ e ∈ cache, e.1 ≠ p) : cacheLookup cache p = none := by
  have hf : cache.find? (fun x => x.1 == p) = none := by
    rw [List.find?_eq_none]
    intro x hx
    simp [h x hx]
  simp [cacheLookup, hf]

theorem settleStep_cache (c : Config) (fid : Nat) (o : Outcome) :
    (settleStep c fid o).mgr.cache = c.mgr.cache := by
  rcases hf : c.pending.find? (fun g => g.id == fid) with _ | f
  · rw [settleStep_not_pending c fid o hf]
  · exact (settleStep_found c fid o f hf).2.2.2.1

/-- C9: when `downloadAll` is called with `p` in the queue, the handle
for `p` is written into the cache synchronously during the issuing loop,
so immediately after `downloadAll` returns `getAsset p` is non-null even
though no fetch has settled yet; and it stays non-null after any settle
event, including a failed one. -/
theorem cache_populated_synchronously (c : Config) (p : String)
    (hp : p ∈ c.mgr.downloadQueue) :
    (downloadAll c).mgr.getAsset p ≠ none
      ∧ ∀ (fid : Nat) (o : Outcome),
          (settleStep (downloadAll c) fid o).mgr.getAsset p ≠ none := by
  have hq : c.mgr.downloadQueue ≠ [] := List.ne_nil_of_mem hp
  obtain ⟨_, _, _, hcache, _, _, _, _, _⟩ := downloadAll_nonempty c hq
  have hmem : p ∈ (issuedFetches c.mgr.downloadQueue c.nextId).map Fetch.path := by
    rw [issuedFetches_map_path]
    exact hp
  rcases List.mem_map.1 hmem with ⟨f, hf, hfp⟩
  have hentry : (p, f.id) ∈ (downloadAll c).mgr.cache := by
    rw [hcache, foldl_cacheWrites]
    apply List.mem_append_left
    rw [List.mem_reverse]
    exact List.mem_map.2 ⟨f, hf, by rw [hfp]⟩
  constructor
  · exact cacheLookup_ne_none _ p (p, f.id) hentry rfl
  · intro fid o
    have hc2 : (settleStep (downloadAll c) fid o).mgr.cache = (downloadAll c).mgr.cache :=
      settleStep_cache (downloadAll c) fid o
    show cacheLookup (settleStep (downloadAll c) fid o).mgr.cache p ≠ none
    rw [hc2]
    exact cacheLookup_ne_none _ p (p, f.id) hentry rfl

/-- Witness for C9: one queued path, cached before any settling. -/
theorem cache_populated_synchronously_witness :
    "a.png" ∈ (queueDownload (initConfig ⟨false⟩) "a.png").mgr.downloadQueue
      ∧ (downloadAll (queueDownload (initConfig ⟨false⟩) "a.png")).mgr.getAsset "a.png" ≠ none :=
  ⟨by decide,
   (cache_populated_synchronously (queueDownload (initConfig ⟨false⟩) "a.png") "a.png"
      (by decide)).1⟩

/-! Noninterference of the options object (claim C8). -/

/-- Configuration with the options object replaced. -/
def withOptions (c : Config) (o : AssetManagerOptions) : Config :=
  { c with mgr := { c.mgr with options := o } }

theorem step_withOptions (c : Config) (o : AssetManagerOptions) (op : Op) :
    step (withOptions c o) op = withOptions (step c op) o := by
  cases op with
  | enqueue p => simp [step, queueDownload, withOptions, debugCall]
  | download =>
      by_cases h : c.mgr.downloadQueue.length = 0 <;>
        simp [step, downloadAll, withOptions, h]
  | settle fid o2 =>
      rcases hf : c.pending.find? (fun g => g.id == fid) with _ | f
      · have hf2 : (withOptions c o).pending.find? (fun g => g.id == fid) = none := hf
        rw [step, step, settleStep_not_pending _ _ _ hf2, settleStep_not_pending _ _ _ hf]
      · have hf2 : (withOptions c o).pending.find? (fun g => g.id == fid) = some f := hf
        cases o2 <;>
          simp [step, settleStep, hf, hf2, withOptions, debugCall, AssetManager.isDone]

theorem run_withOptions (ops : List Op) (c : Config) (o : AssetManagerOptions) :
    run (withOptions c o) ops = withOptions (run c ops) o := by
  induction ops generalizing c with
  | nil => rfl
  | cons op rest ih =>
      simp only [run]
      rw [step_withOptions, ih]

theorem debugging_none_step (c : Config) (op : Op) (h : c.mgr.debugging = none) :
    (step c op).mgr.debugging = none ∧ (step c op).consoleLog = c.consoleLog := by
  cases op with
  | enqueue p =>
      obtain ⟨_, _, _, _, _, hdbg, _, _, _⟩ := queueDownload_mgr c p
      refine ⟨by simp only [step]; rw [hdbg]; exact h, ?_⟩
      simp [step, queueDownload, debugCall_none _ _ h]
  | download =>
      by_cases hq : c.mgr.downloadQueue.length = 0 <;>
        simp [step, downloadAll, hq, h]
  | settle fid o =>
      rcases hf : c.pending.find? (fun g => g.id == fid) with _ | f
      · rw [step, settleStep_not_pending c fid o hf]
        exact ⟨h, rfl⟩
      · obtain ⟨_, _, _, _, _, hdbg, _⟩ := settleStep_found c fid o f hf
        refine ⟨by simp only [step]; rw [hdbg]; exact h, ?_⟩
        cases o <;> simp [step, settleStep, hf, debugCall_none _ _ h]

theorem run_log_empty (ops : List Op) (c : Config)
    (hdbg : c.mgr.debugging = none) (hlog : c.consoleLog = []) :
    (run c ops).mgr.debugging = none ∧ (run c ops).consoleLog = [] := by
  induction ops generalizing c with
  | nil => exact ⟨hdbg, hlog⟩
  | cons op rest ih =>
      obtain ⟨h1, h2⟩ := debugging_none_step c op hdbg
      simp only [run]
      exact ih (step c op) h1 (h2.trans hlog)

/-- C8: two runs of the same event sequence that differ only in the
options object passed to the constructor have identical observable state
— queue, cache, counters, pending fetches, callback invocations, console
output, and the values of `getAsset` and `isDone` — and the console
output is empty in every run: `debug` reads the never-assigned
`this.debugging` field rather than `this.options.debugging`, so debug
logging is disabled regardless of the documented option. -/
theorem options_noninterference (o1 o2 : AssetManagerOptions) (ops : List Op) :
    (run (initConfig o1) ops).mgr.successCount = (run (initConfig o2) ops).mgr.successCount
      ∧ (run (initConfig o1) ops).mgr.errorCount = (run (initConfig o2) ops).mgr.errorCount
      ∧ (run (initConfig o1) ops).mgr.cache = (run (initConfig o2) ops).mgr.cache
      ∧ (run (initConfig o1) ops).mgr.downloadQueue
          = (run (initConfig o2) ops).mgr.downloadQueue
      ∧ (run (initConfig o1) ops).pending = (run (initConfig o2) ops).pending
      ∧ (run (initConfig o1) ops).callbackCount = (run (initConfig o2) ops).callbackCount
      ∧ (run (initConfig o1) ops).consoleLog = (run (initConfig o2) ops).consoleLog
      ∧ (run (initConfig o1) ops).consoleLog = []
      ∧ (∀ p, (run (initConfig o1) ops).mgr.getAsset p
            = (run (initConfig o2) ops).mgr.getAsset p)
      ∧ (run (initConfig o1) ops).mgr.isDone = (run (initConfig o2) ops).mgr.isDone := by
  have hrw : run (initConfig o2) ops = withOptions (run (initConfig o1) ops) o2 := by
    rw [show initConfig o2 = withOptions (initConfig o1) o2 from rfl, run_withOptions]
  have hlog := run_log_empty ops (initConfig o1) rfl rfl
  rw [hrw]
  exact ⟨rfl, rfl, rfl, rfl, rfl, rfl, rfl, hlog.2, fun p => rfl, rfl⟩

/-- C6: a fetch that settles as failed is handled by a total, local
listener — in the model `settleStep` is a total function, so nothing is
thrown, rejected, or aborted — it increments only `errorCount`, leaves
the queue, the cache and the other pending fetches exactly as a loaded
settle would, fires the callback precisely when `isDone()` holds after
the increment, and produces the same number of callback invocations as a
loaded settle of the same fetch (the callback itself carries no
arguments, mirroring the bare `callback()` call). -/
theorem failed_settle_local (c : Config) (fid : Nat) (f : Fetch)
    (hf : c.pending.find? (fun g => g.id == fid) = some f) :
    (settleStep c fid Outcome.failed).mgr.errorCount = c.mgr.errorCount + 1
      ∧ (settleStep c fid Outcome.failed).mgr.successCount = c.mgr.successCount
      ∧ (settleStep c fid Outcome.failed).pending = (settleStep c fid Outcome.loaded).pending
      ∧ (settleStep c fid Outcome.failed).mgr.downloadQueue = c.mgr.downloadQueue
      ∧ (settleStep c fid Outcome.failed).mgr.cache = c.mgr.cache
      ∧ ((settleStep c fid Outcome.failed).callbackCount = c.callbackCount + 1
          ↔ (settleStep c fid Outcome.failed).mgr.isDone = true)
      ∧ (settleStep c fid Outcome.failed).callbackCount
          = (settleStep c fid Outcome.loaded).callbackCount := by
  obtain ⟨h1, h2⟩ := settleStep_failed_counts c fid f hf
  obtain ⟨hcntF, hpendF, hqF, hcacheF, _, _, hcbF⟩ :=
    settleStep_found c fid Outcome.failed f hf
  obtain ⟨hcntL, hpendL, _, _, _, _, hcbL⟩ :=
    settleStep_found c fid Outcome.loaded f hf
  refine ⟨h1, h2, by rw [hpendF, hpendL], hqF, hcacheF, ?_, by rw [hcbF, hcbL]⟩
  rw [hcbF, isDone_iff, hqF, h1, h2]
  split_ifs with hc <;> omega

/-- Witness for C6: the single fetch of a one-element queue fails. -/
theorem failed_settle_local_witness :
    (downloadAll (queueDownload (initConfig ⟨false⟩) "a.png")).pending.find?
        (fun g => g.id == 0) = some ⟨0, "a.png"⟩
      ∧ (settleStep (downloadAll (queueDownload (initConfig ⟨false⟩) "a.png"))
            0 Outcome.failed).mgr.errorCount
          = (downloadAll (queueDownload (initConfig ⟨false⟩) "a.png")).mgr.errorCount + 1 := by
  have h := failed_settle_local (downloadAll (queueDownload (initConfig ⟨false⟩) "a.png"))
    0 ⟨0, "a.png"⟩ (by decide)
  exact ⟨by decide, h.1⟩

/-! Claim C4: getAsset and pending fetches. -/

/-- Counterexample to C4 as stated: after queueing "a.png" and calling
`downloadAll`, the fetch has not settled (it is still pending), yet
`getAsset` returns the stored handle rather than null — the cache is
written at issue time (source line 92), not at settle time. -/
theorem getAsset_pending_counterexample :
    (downloadAll (queueDownload (initConfig ⟨false⟩) "a.png")).pending ≠ []
      ∧ (downloadAll (queueDownload (initConfig ⟨false⟩) "a.png")).mgr.getAsset "a.png"
          = some 0 := by
  decide

/-- Invariant: every cache key is a queued path. -/
def CacheKeysInv (c : Config) : Prop :=
  ∀ e ∈ c.mgr.cache, e.1 ∈ c.mgr.downloadQueue

theorem downloadAll_cache_key (c : Config) (p : String)
    (hp : p ∈ c.mgr.downloadQueue) :
    ∃ v, (p, v) ∈ (downloadAll c).mgr.cache := by
  have hq : c.mgr.downloadQueue ≠ [] := List.ne_nil_of_mem hp
  obtain ⟨_, _, _, hcache, _, _, _, _, _⟩ := downloadAll_nonempty c hq
  have hmem : p ∈ (issuedFetches c.mgr.downloadQueue c.nextId).map Fetch.path := by
    rw [issuedFetches_map_path]
    exact hp
  rcases List.mem_map.1 hmem with ⟨f, hf, hfp⟩
  refine ⟨f.id, ?_⟩
  rw [hcache, foldl_cacheWrites]
  apply List.mem_append_left
  rw [List.mem_reverse]
  exact List.mem_map.2 ⟨f, hf, by rw [hfp]⟩

theorem downloadAll_cache_extends (c : Config) (e : String × Nat)
    (h : e ∈ c.mgr.cache) : e ∈ (downloadAll c).mgr.cache := by
  by_cases hq : c.mgr.downloadQueue.length = 0
  · simpa [downloadAll, hq] using h
  · obtain ⟨_, _, _, hcache, _, _, _, _, _⟩ :=
      downloadAll_nonempty c (by simpa [← List.length_eq_zero] using hq)
    rw [hcache, foldl_cacheWrites]
    exact List.mem_append_right _ h

theorem cacheKeys_step (c : Config) (op : Op) (h : CacheKeysInv c) :
    CacheKeysInv (step c op) := by
  cases op with
  | enqueue p =>
      intro e he
      obtain ⟨hq, _, _, hcache, _, _, _, _, _⟩ := queueDownload_mgr c p
      rw [step] at he ⊢
      rw [hcache] at he
      rw [hq]
      exact List.mem_append_left _ (h e he)
  | download =>
      intro e he
      rw [step] at he ⊢
      by_cases hq : c.mgr.downloadQueue.length = 0
      · rw [downloadAll_empty_queue c (List.length_eq_zero.1 hq)] at he ⊢
        exact h e he
      · obtain ⟨hq2, _, _, hcache, _, _, _, _, _⟩ :=
          downloadAll_nonempty c (by simpa [← List.length_eq_zero] using hq)
        rw [hcache, foldl_cacheWrites] at he
        rw [hq2]
        rcases List.mem_append.1 he with h1 | h2
        · rw [List.mem_reverse] at h1
          rcases List.mem_map.1 h1 with ⟨f, hf, hfe⟩
          have hpmem : e.1 ∈ (issuedFetches c.mgr.downloadQueue c.nextId).map Fetch.path :=
            List.mem_map.2 ⟨f, hf, by rw [← hfe]⟩
          rw [issuedFetches_map_path] at hpmem
          exact hpmem
        · exact h e h2
  | settle fid o =>
      intro e he
      rw [step] at he ⊢
      rw [settleStep_cache] at he
      rcases hf : c.pending.find? (fun g => g.id == fid) with _ | f
      · rw [settleStep_not_pending c fid o hf]
        exact h e he
      · rw [(settleStep_found c fid o f hf).2.2.1]
        exact h e he

theorem cacheKeys_run (ops : List Op) (c : Config) (h : CacheKeysInv c) :
    CacheKeysInv (run c ops) := by
  induction ops generalizing c with
  | nil => exact h
  | cons op rest ih =>
      simp only [run]
      exact ih (step c op) (cacheKeys_step c op h)

theorem cache_key_persists_step (c : Config) (op : Op) (e : String × Nat)
    (h : e ∈ c.mgr.cache) : e ∈ (step c op).mgr.cache := by
  cases op with
  | enqueue p =>
      obtain ⟨_, _, _, hcache, _, _, _, _, _⟩ := queueDownload_mgr c p
      rw [step, hcache]
      exact h
  | download =>
      rw [step]
      exact downloadAll_cache_extends c e h
  | settle fid o =>
      rw [step, settleStep_cache]
      exact h

theorem cache_key_persists_run (ops : List Op) (c : Config) (e : String × Nat)
    (h : e ∈ c.mgr.cache) : e ∈ (run c ops).mgr.cache := by
  induction ops generalizing c with
  | nil => exact h
  | cons op rest ih =>
      simp only [run]
      exact ih (step c op) (cache_key_persists_step c op e h)

theorem run_append (l1 l2 : List Op) (c : Config) :
    run c (l1 ++ l2) = run (run c l1) l2 := by
  induction l1 generalizing c with
  | nil => rfl
  | cons op t ih =>
      simp only [List.cons_append, run]
      exact ih (step c op)

/-- C4 amended: `getAsset p` returns null whenever `p` is not in the
download queue — in particular when `p` was never queued, since cache
keys always come from the queue — and whenever a `downloadAll` call was
made at a point where `p` was queued, `getAsset p` returns a stored
handle (non-null) from that moment on: already while the fetch is still
pending, and still after it settles as loaded.  (The unamended reading,
that `getAsset` stays null until the fetch settles, is refuted by
`getAsset_pending_counterexample`.) -/
theorem getAsset_spec_amended (opts : AssetManagerOptions) (ops : List Op) (p : String) :
    (p ∉ (run (initConfig opts) ops).mgr.downloadQueue
        → (run (initConfig opts) ops).mgr.getAsset p = none)
      ∧ (∀ front rest, ops = front ++ Op.download :: rest
          → p ∈ (run (initConfig opts) front).mgr.downloadQueue
          → (run (initConfig opts) ops).mgr.getAsset p ≠ none) := by
  constructor
  · intro hnp
    have hkeys : CacheKeysInv (run (initConfig opts) ops) := by
      apply cacheKeys_run
      intro e he
      cases he
    apply cacheLookup_none
    intro e he hep
    exact hnp (by rw [← hep]; exact hkeys e he)
  · intro front rest hops hp
    obtain ⟨v, hv⟩ := downloadAll_cache_key (run (initConfig opts) front) p hp
    have hpers : (p, v) ∈ (run (initConfig opts) ops).mgr.cache := by
      rw [hops, run_append]
      have hstep : run (run (initConfig opts) front) (Op.download :: rest)
          = run (step (run (initConfig opts) front) Op.download) rest := rfl
      rw [hstep]
      exact cache_key_persists_run rest _ (p, v) hv
    exact cacheLookup_ne_none _ p (p, v) hpers rfl

/-- Witness for the amended C4: a path that is not queued reads null, a
queued and downloaded path reads non-null while still pending. -/
theorem getAsset_spec_amended_witness :
    (run (initConfig ⟨false⟩) [Op.enqueue "a.png", Op.download]).mgr.getAsset "b.png" = none
      ∧ (run (initConfig ⟨false⟩) [Op.enqueue "a.png", Op.download]).mgr.getAsset "a.png"
          ≠ none := by
  have h1 := getAsset_spec_amended ⟨false⟩ [Op.enqueue "a.png", Op.download] "b.png"
  have h2 := getAsset_spec_amended ⟨false⟩ [Op.enqueue "a.png", Op.download] "a.png"
  exact ⟨h1.1 (by decide), h2.2 [Op.enqueue "a.png"] [] rfl (by decide)⟩

/-! Claim C5: a path queued twice. -/

/-- Counterexample to C5 as stated: queue "a.png" twice; the loop issues
handles 0 and 1; the fetch with handle 1 settles first and the fetch with
handle 0 settles last, yet `getAsset` returns handle 1 — the handle of
the fetch issued last — and not handle 0, the handle of the fetch that
settled last.  The cache is only written during the issuing loop, so
settle order cannot influence it. -/
theorem cache_last_settler_counterexample :
    (settleStep (settleStep (downloadAll (run (initConfig ⟨false⟩)
          [Op.enqueue "a.png", Op.enqueue "a.png"])) 1 Outcome.loaded)
        0 Outcome.loaded).mgr.getAsset "a.png" = some 1
      ∧ (settleStep (settleStep (downloadAll (run (initConfig ⟨false⟩)
            [Op.enqueue "a.png", Op.enqueue "a.png"])) 1 Outcome.loaded)
          0 Outcome.loaded).mgr.getAsset "a.png" ≠ some 0 := by
  decide

/-- C5 amended: a path queued twice before `downloadAll` produces two
independent fetches whose settle events are counted separately — the
callback fires only after both settle, in either order and with either
outcome — but the cache retains under the path the handle of the fetch
issued last (the second queue position, handle 1), regardless of which
fetch settles last. -/
theorem double_queue_amended (opts : AssetManagerOptions) (p : String)
    (o1 o2 : Outcome) (i j : Nat)
    (hij : (i = 0 ∧ j = 1) ∨ (i = 1 ∧ j = 0)) :
    (downloadAll (run (initConfig opts) ([p, p].map Op.enqueue))).pending.length = 2
      ∧ (settleStep (downloadAll (run (initConfig opts) ([p, p].map Op.enqueue)))
            i o1).callbackCount = 0
      ∧ (settleStep (settleStep (downloadAll (run (initConfig opts) ([p, p].map Op.enqueue)))
            i o1) j o2).callbackCount = 1
      ∧ (settleStep (settleStep (downloadAll (run (initConfig opts) ([p, p].map Op.enqueue)))
            i o1) j o2).mgr.getAsset p = some 1 := by
  have hstart := cycleStart opts [p, p] (by simp)
  rw [hstart]
  rcases hij with ⟨rfl, rfl⟩ | ⟨rfl, rfl⟩ <;> cases o1 <;> cases o2 <;>
    simp [settleStep, issuedFetches, AssetManager.isDone, AssetManager.getAsset,
      cacheLookup, debugCall, truthy]

/-- Witness for the amended C5: concrete path, reverse settle order. -/
theorem double_queue_amended_witness :
    (settleStep (settleStep (downloadAll (run (initConfig ⟨false⟩)
          (["a.png", "a.png"].map Op.enqueue))) 1 Outcome.loaded)
        0 Outcome.loaded).mgr.getAsset "a.png" = some 1 :=
  (double_queue_amended ⟨false⟩ "a.png" Outcome.loaded Outcome.loaded 1 0
    (Or.inr ⟨rfl, rfl⟩)).2.2.2
